import Mathlib

/-!
Shallow embedding of the minigrep crate (src/lib.rs and src/style.rs).
Strings are modelled as lists of characters.  The Rust standard-library
functions the crate uses (str::replace, String::contains,
str::to_lowercase, u8 parsing, splitting on a character) are embedded
alongside the crate's own functions.  Effectful parts (environment
lookup, the filesystem read, printed warnings) are made explicit as
parameters and returned values.
-/

namespace Minigrep

/-- Decimal digit list of a natural number, as produced by the integer
formatting used in the Rust format strings. -/
def natRepr (n : Nat) : List Char := (Nat.repr n).data

/-- Translation of add_fg of style.rs: wrap a string in a 24-bit
foreground colour escape and a reset escape. -/
def add_fg (s : List Char) (r g b : Nat) : List Char :=
  "\x1b[38;2;".data ++ natRepr r ++ ";".data ++ natRepr g ++ ";".data ++ natRepr b
    ++ ";1m".data ++ s ++ "\x1b[0m".data

/-- Translation of add_style of style.rs: wrap a string in the escape for
a terminal text attribute when the code is at most 9, and return the
string unchanged otherwise. -/
def add_style (s : List Char) (style : Nat) : List Char :=
  if style ≤ 9 then "\x1b[".data ++ natRepr style ++ ";1m".data ++ s ++ "\x1b[0m".data
  else s

/-- Scanner of Rust str::replace for a non-empty pattern: scan left to
right and replace each non-overlapping occurrence of pat by rep.  The Nat
argument is recursion fuel; any fuel at least the length of the scanned
list gives the exact result. -/
def replaceFuel (pat rep : List Char) : Nat → List Char → List Char
  | _, [] => []
  | 0, s => s
  | fuel + 1, c :: rest =>
    if pat.isPrefixOf (c :: rest) then
      rep ++ replaceFuel pat rep fuel (rest.drop (pat.length - 1))
    else
      c :: replaceFuel pat rep fuel rest

/-- Behaviour of Rust str::replace with an empty pattern: the replacement
is inserted at every character boundary, before the first character and
after the last. -/
def interleave (rep : List Char) : List Char → List Char
  | [] => rep
  | c :: rest => rep ++ c :: interleave rep rest

/-- Translation of the Rust call line.replace(pat, rep) on strings. -/
def strReplace (s pat rep : List Char) : List Char :=
  match pat with
  | [] => interleave rep s
  | _ :: _ => replaceFuel pat rep s.length s

/-- Translation of format of lib.rs: replace every occurrence of word in
line by the styled word. -/
def format (line word : List Char) (style : Nat) : List Char :=
  strReplace line word (add_style word style)

/-- Translation of Rust String::contains with a literal string pattern:
pat occurs in the string as a contiguous substring. -/
def containsSub (pat : List Char) : List Char → Bool
  | [] => pat.isPrefixOf []
  | c :: rest => pat.isPrefixOf (c :: rest) || containsSub pat rest

/-- Model of Rust str::to_lowercase at the simple per-character folding
level this program relies on (ASCII letters; locale- and
context-dependent Unicode lowercasings are outside the program's scope
per its documentation). -/
def toLowerStr (s : List Char) : List Char := s.map Char.toLower

/-- Translation of search of lib.rs: the indices i in 0..len whose line
contains the query, collected in increasing order. -/
def search (query : List Char) (contents : List (List Char)) : List Nat :=
  (List.range contents.length).filter (fun i => containsSub query (contents.getD i []))

/-- Translation of search_case_insensitive of lib.rs: the query and each
candidate line are lowercased before the containment check; the indices
refer to the original lines. -/
def search_case_insensitive (query : List Char) (contents : List (List Char)) : List Nat :=
  (List.range contents.length).filter
    (fun i => containsSub (toLowerStr query) (toLowerStr (contents.getD i [])))

/-- Translation of Rust str::parse for u8: an optional leading plus sign,
then one or more ASCII digits, with a value of at most 255. -/
def parseU8 (s : List Char) : Option Nat :=
  let t := match s with
    | '+' :: r => r
    | _ => s
  if t = [] then none
  else if t.all Char.isDigit then
    let n := t.foldl (fun acc c => 10 * acc + (c.toNat - 48)) 0
    if n ≤ 255 then some n else none
  else none

/-- Translation of the Config struct of lib.rs. -/
structure Config where
  query : List Char
  filename : List Char
  style : Nat
  case_sensitive : Bool
deriving DecidableEq

/-- Error message of Config::new when the query argument is missing. -/
def msgMissingQuery : List Char :=
  add_fg ("Missing the first argument (query)".data) 255 0 0

/-- Error message of Config::new when the filename argument is missing. -/
def msgMissingFilename : List Char :=
  add_fg ("Missing the second argument (filename)".data) 255 0 0

/-- Warning of Config::new when the style argument does not parse. -/
def warnBadStyle : List Char :=
  add_fg ("WARNING: Could not parse the third argument (style) as a u8".data) 255 255 0

/-- Warning of Config::new when more than three arguments are supplied. -/
def warnTooMany : List Char :=
  add_fg ("WARNING: Too many arguments; the 4th one and up will be discarded".data) 255 255 0

/-- Translation of Config::new of lib.rs.  The argument list includes the
program name in position zero, exactly as the Rust iterator does; the
environment lookup of CASE_INSENSITIVE is passed in as the optional value
of that variable.  Alongside the configuration the model returns the list
of warning messages the Rust code prints to stderr, in order. -/
def Config.new (args : List (List Char)) (envCaseInsensitive : Option (List Char)) :
    Except (List Char) (Config × List (List Char)) :=
  match args.drop 1 with
  | [] => .error msgMissingQuery
  | query :: rest =>
    match rest with
    | [] => .error msgMissingFilename
    | filename :: rest2 =>
      let case_sensitive := envCaseInsensitive.isNone
      match rest2 with
      | [] => .ok ({ query, filename, style := 0, case_sensitive }, [])
      | styleArg :: rest3 =>
        let parsed : Nat × List (List Char) :=
          match parseU8 styleArg with
          | some x => (x, [])
          | none => (0, [warnBadStyle])
        let extraWarns : List (List Char) :=
          match rest3 with
          | [] => []
          | _ :: _ => [warnTooMany]
        .ok ({ query, filename, style := parsed.1, case_sensitive },
             parsed.2 ++ extraWarns)

/-- Translation of the line splitting in read_file of lib.rs: split the
file content on the line feed character. -/
def splitNl : List Char → List (List Char)
  | [] => [[]]
  | c :: rest =>
    if c = '\n' then [] :: splitNl rest
    else
      match splitNl rest with
      | [] => [[c]]
      | p :: ps => (c :: p) :: ps

/-- Translation of read_file of lib.rs.  The filesystem read is passed in
as an optional file content; none models any read failure. -/
def read_file (filename : List Char) (readResult : Option (List Char)) :
    Except (List Char) (List (List Char)) :=
  match readResult with
  | none => .error (add_fg (("Could not open the file ".data) ++ filename) 255 0 0)
  | some content => .ok (splitNl content)

/-- Translation of run of lib.rs: read the file, select the matching line
indices per the case mode, and return the lines in the order and the form
in which they are printed (styled when style is positive).  Line indexing
is modelled with getD; the bounds theorem below shows the default is
never taken. -/
def run (config : Config) (readResult : Option (List Char)) :
    Except (List Char) (List (List Char)) :=
  match read_file config.filename readResult with
  | .error e => .error e
  | .ok contents =>
    let lines_with_query :=
      if config.case_sensitive then search config.query contents
      else search_case_insensitive config.query contents
    if config.style > 0 then
      .ok (lines_with_query.map
        (fun n => format (contents.getD n []) config.query config.style))
    else
      .ok (lines_with_query.map (fun n => contents.getD n []))

/-- Gap decomposition used to state the replacement theorems: the
segments of the scanned list that lie between the consecutive
non-overlapping occurrences of pat found by a left-to-right scan, with
fuel as in replaceFuel. -/
def splitFuel (pat : List Char) : Nat → List Char → List (List Char)
  | _, [] => [[]]
  | 0, s => [s]
  | fuel + 1, c :: rest =>
    if pat.isPrefixOf (c :: rest) then
      [] :: splitFuel pat fuel (rest.drop (pat.length - 1))
    else
      match splitFuel pat fuel rest with
      | [] => [[c]]
      | p :: ps => (c :: p) :: ps

/-- Gap decomposition of s along the non-overlapping occurrences of pat,
scanning left to right. -/
def splitOnSub (pat s : List Char) : List (List Char) := splitFuel pat s.length s

/-- Join a list of segments, placing the separator between consecutive
segments. -/
def sepJoin (sep : List Char) : List (List Char) → List Char
  | [] => []
  | [p] => p
  | p :: q :: rest => p ++ sep ++ sepJoin sep (q :: rest)

theorem isPrefixOf_eq_true_iff (l s : List Char) :
    l.isPrefixOf s = true ↔ ∃ t, s = l ++ t := by
  induction l generalizing s with
  | nil => simp [List.isPrefixOf]
  | cons a l ih =>
    cases s with
    | nil => simp [List.isPrefixOf]
    | cons b s =>
      simp only [List.isPrefixOf, Bool.and_eq_true, beq_iff_eq, ih, List.cons_append,
        List.cons.injEq]
      constructor
      · rintro ⟨rfl, t, rfl⟩
        exact ⟨t, rfl, rfl⟩
      · rintro ⟨t, rfl, rfl⟩
        exact ⟨rfl, t, rfl⟩

theorem isPrefixOf_append_right (l s t : List Char) (h : l.isPrefixOf s = true) :
    l.isPrefixOf (s ++ t) = true := by
  rcases (isPrefixOf_eq_true_iff l s).mp h with ⟨u, rfl⟩
  exact (isPrefixOf_eq_true_iff l _).mpr ⟨u ++ t, by simp⟩

theorem containsSub_eq_true_iff (pat s : List Char) :
    containsSub pat s = true ↔ ∃ pre post, s = pre ++ pat ++ post := by
  induction s with
  | nil =>
    rw [containsSub, isPrefixOf_eq_true_iff]
    constructor
    · rintro ⟨t, ht⟩
      exact ⟨[], t, ht⟩
    · rintro ⟨pre, post, h⟩
      rcases List.append_eq_nil.mp h.symm with ⟨h1, h2⟩
      rcases List.append_eq_nil.mp h1 with ⟨h3, h4⟩
      exact ⟨post, by simp [h4, h2]⟩
  | cons c rest ih =>
    rw [containsSub]
    simp only [Bool.or_eq_true, isPrefixOf_eq_true_iff, ih]
    constructor
    · rintro (⟨t, ht⟩ | ⟨pre, post, h⟩)
      · exact ⟨[], t, ht⟩
      · exact ⟨c :: pre, post, by simp [h]⟩
    · rintro ⟨pre, post, h⟩
      cases pre with
      | nil => exact Or.inl ⟨post, by simpa using h⟩
      | cons d pre =>
        simp only [List.cons_append] at h
        injection h with h1 h2
        exact Or.inr ⟨pre, post, h2⟩

theorem containsSub_nil_pat (s : List Char) : containsSub [] s = true := by
  cases s <;> simp [containsSub, List.isPrefixOf]

theorem splitFuel_ne_nil (pat : List Char) (fuel : Nat) (s : List Char) :
    splitFuel pat fuel s ≠ [] := by
  match fuel, s with
  | fuel, [] => simp [splitFuel]
  | 0, c :: rest => simp [splitFuel]
  | fuel + 1, c :: rest =>
    rw [splitFuel]
    split
    · simp
    · cases h : splitFuel pat fuel rest <;> simp

theorem sepJoin_cons_head (sep : List Char) (c : Char) (p : List Char)
    (ps : List (List Char)) :
    sepJoin sep ((c :: p) :: ps) = c :: sepJoin sep (p :: ps) := by
  cases ps with
  | nil => rfl
  | cons q t => simp [sepJoin]

theorem sepJoin_head_append (sep p : List Char) (ps : List (List Char)) :
    ∃ t, sepJoin sep (p :: ps) = p ++ t := by
  cases ps with
  | nil => exact ⟨[], by simp [sepJoin]⟩
  | cons q t => exact ⟨sep ++ sepJoin sep (q :: t), by simp [sepJoin]⟩

theorem prefix_drop_eq (a : Char) (pat' : List Char) (c : Char) (rest : List Char)
    (h : (a :: pat').isPrefixOf (c :: rest) = true) :
    c :: rest = (a :: pat') ++ rest.drop ((a :: pat').length - 1) := by
  rcases (isPrefixOf_eq_true_iff _ _).mp h with ⟨t, ht⟩
  have hc : c = a ∧ rest = pat' ++ t := by simpa using ht
  rcases hc with ⟨rfl, hrest⟩
  subst hrest
  simp [List.drop_left]

theorem sepJoin_splitFuel (a : Char) (pat' : List Char) (fuel : Nat) :
    ∀ s : List Char, s.length ≤ fuel →
      sepJoin (a :: pat') (splitFuel (a :: pat') fuel s) = s := by
  induction fuel with
  | zero =>
    intro s hs
    have hsnil : s = [] := List.length_eq_zero.mp (Nat.le_zero.mp hs)
    subst hsnil
    rfl
  | succ fuel ih =>
    intro s hs
    cases s with
    | nil => rfl
    | cons c rest =>
      have hrest : rest.length ≤ fuel := by
        simpa using Nat.lt_succ_iff.mp (Nat.lt_of_lt_of_le (by simp) hs)
      rw [splitFuel]
      by_cases hp : (a :: pat').isPrefixOf (c :: rest) = true
      · simp only [if_pos hp]
        set t := rest.drop ((a :: pat').length - 1) with hteq
        have htlen : t.length ≤ fuel := by
          have h1 : t.length ≤ rest.length := by simp [hteq]
          omega
        obtain ⟨p, ps, hps⟩ : ∃ p ps, splitFuel (a :: pat') fuel t = p :: ps := by
          cases h' : splitFuel (a :: pat') fuel t with
          | nil => exact absurd h' (splitFuel_ne_nil _ _ _)
          | cons p ps => exact ⟨p, ps, rfl⟩
        rw [hps]
        show [] ++ (a :: pat') ++ sepJoin (a :: pat') (p :: ps) = c :: rest
        rw [← hps, ih t htlen]
        simpa using (prefix_drop_eq a pat' c rest hp).symm
      · simp only [if_neg hp]
        obtain ⟨p, ps, hps⟩ : ∃ p ps, splitFuel (a :: pat') fuel rest = p :: ps := by
          cases h' : splitFuel (a :: pat') fuel rest with
          | nil => exact absurd h' (splitFuel_ne_nil _ _ _)
          | cons p ps => exact ⟨p, ps, rfl⟩
        rw [hps, sepJoin_cons_head, ← hps, ih rest hrest]

theorem replaceFuel_eq_sepJoin (a : Char) (pat' rep : List Char) (fuel : Nat) :
    ∀ s : List Char, s.length ≤ fuel →
      replaceFuel (a :: pat') rep fuel s = sepJoin rep (splitFuel (a :: pat') fuel s) := by
  induction fuel with
  | zero =>
    intro s hs
    have hsnil : s = [] := List.length_eq_zero.mp (Nat.le_zero.mp hs)
    subst hsnil
    rfl
  | succ fuel ih =>
    intro s hs
    cases s with
    | nil => rfl
    | cons c rest =>
      have hrest : rest.length ≤ fuel := by
        simpa using Nat.lt_succ_iff.mp (Nat.lt_of_lt_of_le (by simp) hs)
      rw [replaceFuel, splitFuel]
      by_cases hp : (a :: pat').isPrefixOf (c :: rest) = true
      · simp only [if_pos hp]
        set t := rest.drop ((a :: pat').length - 1) with hteq
        have htlen : t.length ≤ fuel := by
          have h1 : t.length ≤ rest.length := by simp [hteq]
          omega
        obtain ⟨p, ps, hps⟩ : ∃ p ps, splitFuel (a :: pat') fuel t = p :: ps := by
          cases h' : splitFuel (a :: pat') fuel t with
          | nil => exact absurd h' (splitFuel_ne_nil _ _ _)
          | cons p ps => exact ⟨p, ps, rfl⟩
        rw [ih t htlen, hps]
        show rep ++ sepJoin rep (p :: ps) = sepJoin rep ([] :: p :: ps)
        simp [sepJoin]
      · simp only [if_neg hp]
        obtain ⟨p, ps, hps⟩ : ∃ p ps, splitFuel (a :: pat') fuel rest = p :: ps := by
          cases h' : splitFuel (a :: pat') fuel rest with
          | nil => exact absurd h' (splitFuel_ne_nil _ _ _)
          | cons p ps => exact ⟨p, ps, rfl⟩
        rw [ih rest hrest, hps, sepJoin_cons_head]

theorem strReplace_decomp (pat rep s : List Char) (hpat : pat ≠ []) :
    strReplace s pat rep = sepJoin rep (splitOnSub pat s)
    ∧ s = sepJoin pat (splitOnSub pat s) := by
  cases pat with
  | nil => exact absurd rfl hpat
  | cons a pat' =>
    constructor
    · exact replaceFuel_eq_sepJoin a pat' rep s.length s (Nat.le_refl _)
    · exact (sepJoin_splitFuel a pat' s.length s (Nat.le_refl _)).symm

theorem interleave_nil_rep (s : List Char) : interleave [] s = s := by
  induction s with
  | nil => rfl
  | cons c rest ih => simp [interleave, ih]

theorem strReplace_self (s pat : List Char) : strReplace s pat pat = s := by
  cases pat with
  | nil => exact interleave_nil_rep s
  | cons a pat' =>
    have h := strReplace_decomp (a :: pat') (a :: pat') s (by simp)
    rw [h.1, ← h.2]

theorem splitFuel_parts_no_match (a : Char) (pat' : List Char) (fuel : Nat) :
    ∀ s : List Char, s.length ≤ fuel →
      ∀ p ∈ splitFuel (a :: pat') fuel s, containsSub (a :: pat') p = false := by
  induction fuel with
  | zero =>
    intro s hs p hp
    have hsnil : s = [] := List.length_eq_zero.mp (Nat.le_zero.mp hs)
    subst hsnil
    simp only [splitFuel, List.mem_singleton] at hp
    subst hp
    simp [containsSub, List.isPrefixOf]
  | succ fuel ih =>
    intro s hs p hp
    cases s with
    | nil =>
      simp only [splitFuel, List.mem_singleton] at hp
      subst hp
      simp [containsSub, List.isPrefixOf]
    | cons c rest =>
      have hrest : rest.length ≤ fuel := by
        simpa using Nat.lt_succ_iff.mp (Nat.lt_of_lt_of_le (by simp) hs)
      rw [splitFuel] at hp
      by_cases hpre : (a :: pat').isPrefixOf (c :: rest) = true
      · rw [if_pos hpre] at hp
        rcases List.mem_cons.mp hp with rfl | hmem
        · simp [containsSub, List.isPrefixOf]
        · set t := rest.drop ((a :: pat').length - 1) with hteq
          have htlen : t.length ≤ fuel := by
            have h1 : t.length ≤ rest.length := by simp [hteq]
            omega
          exact ih t htlen p hmem
      · rw [if_neg hpre] at hp
        obtain ⟨q, ps, hps⟩ : ∃ q ps, splitFuel (a :: pat') fuel rest = q :: ps := by
          cases h' : splitFuel (a :: pat') fuel rest with
          | nil => exact absurd h' (splitFuel_ne_nil _ _ _)
          | cons q ps => exact ⟨q, ps, rfl⟩
        rw [hps] at hp
        rcases List.mem_cons.mp hp with rfl | hmem
        · have hq : containsSub (a :: pat') q = false :=
            ih rest hrest q (by rw [hps]; exact List.mem_cons_self _ _)
          rw [containsSub]
          simp only [Bool.or_eq_false_iff]
          refine ⟨?_, hq⟩
          by_contra hcq
          have hcq' : (a :: pat').isPrefixOf (c :: q) = true := by
            cases h' : (a :: pat').isPrefixOf (c :: q) with
            | true => rfl
            | false => exact absurd h' hcq
          obtain ⟨t, ht⟩ := sepJoin_head_append (a :: pat') q ps
          have hrestq : rest = q ++ t := by
            rw [← sepJoin_splitFuel a pat' fuel rest hrest, hps, ht]
          apply hpre
          have : (a :: pat').isPrefixOf ((c :: q) ++ t) = true :=
            isPrefixOf_append_right _ _ _ hcq'
          simpa [hrestq] using this
        · exact ih rest hrest p (by rw [hps]; exact List.mem_cons_of_mem _ hmem)

theorem splitOnSub_no_match (pat s : List Char) (hpat : pat ≠ []) :
    ∀ p ∈ splitOnSub pat s, containsSub pat p = false := by
  cases pat with
  | nil => exact absurd rfl hpat
  | cons a pat' => exact splitFuel_parts_no_match a pat' s.length s (Nat.le_refl _)

theorem add_style_of_le (s : List Char) (st : Nat) (h : st ≤ 9) :
    add_style s st
      = "\x1b[".data ++ natRepr st ++ ";1m".data ++ s ++ "\x1b[0m".data := by
  simp [add_style, h]

theorem add_style_of_gt (s : List Char) (st : Nat) (h : 9 < st) : add_style s st = s := by
  rw [add_style, if_neg (by omega)]

theorem interleave_length (rep l : List Char) :
    (interleave rep l).length = rep.length + l.length * (rep.length + 1) := by
  induction l with
  | nil => simp [interleave]
  | cons c rest ih =>
    simp only [interleave, List.length_append, List.length_cons, ih]
    ring

/-- C1 counterexample: with style code 0 the claimed identity fails;
format wraps the occurrence of the query in the escape for attribute 0. -/
theorem c1_style_zero_counterexample :
    format ("love".data) ("love".data) 0 ≠ ("love".data) := by decide

/-- C1 (amended): for any style code s at most 9 (including 0), format
wraps every occurrence of a non-empty query between the start marker for
s and the reset marker, leaving the non-matching gap segments of the line
unchanged; for s above 9, format returns the line exactly unchanged.  The
original claim's identity at s equal to 0 does not hold on the code. -/
theorem c1_format_style_cases (line q : List Char) (s : Nat) :
    (9 < s → format line q s = line)
    ∧ (s ≤ 9 → q ≠ [] →
        line = sepJoin q (splitOnSub q line)
        ∧ format line q s
          = sepJoin ("\x1b[".data ++ natRepr s ++ ";1m".data ++ q ++ "\x1b[0m".data)
              (splitOnSub q line)
        ∧ ∀ p ∈ splitOnSub q line, containsSub q p = false) := by
  constructor
  · intro h9
    rw [format, add_style_of_gt q s h9]
    exact strReplace_self line q
  · intro h9 hq
    have h := strReplace_decomp q (add_style q s) line hq
    refine ⟨h.2, ?_, splitOnSub_no_match q line hq⟩
    rw [format, h.1, add_style_of_le q s h9]

/-- Witness for C1's amended theorem at concrete inputs. -/
theorem c1_format_style_cases_witness :
    format ("abc".data) ("b".data) 10 = ("abc".data)
    ∧ ("aba".data) = sepJoin ("b".data) (splitOnSub ("b".data) ("aba".data)) :=
  ⟨(c1_format_style_cases ("abc".data) ("b".data) 10).1 (by decide),
   ((c1_format_style_cases ("aba".data) ("b".data) 4).2 (by decide) (by decide)).1⟩

/-- C2: every line index returned by the case-sensitive matcher is also
returned by the case-insensitive matcher on the same lines and query. -/
theorem c2_search_subset_ci (q : List Char) (cs : List (List Char)) :
    ∀ i ∈ search q cs, i ∈ search_case_insensitive q cs := by
  intro i hi
  rw [search] at hi
  rw [search_case_insensitive]
  rcases List.mem_filter.mp hi with ⟨hr, hc⟩
  refine List.mem_filter.mpr ⟨hr, ?_⟩
  rcases (containsSub_eq_true_iff _ _).mp hc with ⟨pre, post, hline⟩
  exact (containsSub_eq_true_iff _ _).mpr
    ⟨toLowerStr pre, toLowerStr post, by rw [toLowerStr, hline]; simp [toLowerStr]⟩

/-- Witness for C2 at a concrete input. -/
theorem c2_search_subset_ci_witness :
    0 ∈ search_case_insensitive ("a".data) [("a".data)] :=
  c2_search_subset_ci ("a".data) [("a".data)] 0 (by decide)

/-- C3: the formatter replaces all occurrences of a non-empty query in
the line, by case-sensitive literal matching against the original line,
for every style code in 1..9; in particular on line
"I love blue cheese!" with query "love" and style 1 the output is "I "
followed by the bold start marker, "love", the reset marker and
" blue cheese!". -/
theorem c3_format_replaces_all :
    (∀ (line q : List Char) (s : Nat), 1 ≤ s → s ≤ 9 → q ≠ [] →
        line = sepJoin q (splitOnSub q line)
        ∧ format line q s
          = sepJoin ("\x1b[".data ++ natRepr s ++ ";1m".data ++ q ++ "\x1b[0m".data)
              (splitOnSub q line))
    ∧ format ("I love blue cheese!".data) ("love".data) 1
        = ("I \x1b[1;1mlove\x1b[0m blue cheese!".data) := by
  constructor
  · intro line q s _ h9 hq
    have h := strReplace_decomp q (add_style q s) line hq
    refine ⟨h.2, ?_⟩
    rw [format, h.1, add_style_of_le q s h9]
  · decide

/-- Witness for C3's quantified part at the scenario input. -/
theorem c3_format_replaces_all_witness :
    ("I love blue cheese!".data)
      = sepJoin ("love".data) (splitOnSub ("love".data) ("I love blue cheese!".data)) :=
  (c3_format_replaces_all.1 ("I love blue cheese!".data) ("love".data) 1
    (by decide) (by decide) (by decide)).1

/-- C4: each matcher returns exactly the indices of the lines containing
the query as a contiguous substring, in strictly ascending order without
duplicates; the case-insensitive matcher lowercases both the query and
the line before the containment check, and its indices refer to the
original lines. -/
theorem c4_search_characterization (q : List Char) (cs : List (List Char)) :
    ((∀ i, i ∈ search q cs
        ↔ i < cs.length ∧ ∃ pre post, cs.getD i [] = pre ++ q ++ post)
      ∧ List.Pairwise (fun a b => a < b) (search q cs))
    ∧ ((∀ i, i ∈ search_case_insensitive q cs
        ↔ i < cs.length
          ∧ ∃ pre post, toLowerStr (cs.getD i []) = pre ++ toLowerStr q ++ post)
      ∧ List.Pairwise (fun a b => a < b) (search_case_insensitive q cs)) := by
  refine ⟨⟨fun i => ?_, ?_⟩, fun i => ?_, ?_⟩
  · simp only [search, List.mem_filter, List.mem_range]
    exact and_congr_right fun _ => containsSub_eq_true_iff q (cs.getD i [])
  · simp only [search]
    exact (List.pairwise_lt_range _).sublist (List.filter_sublist _)
  · simp only [search_case_insensitive, List.mem_filter, List.mem_range]
    exact and_congr_right fun _ => containsSub_eq_true_iff _ _
  · simp only [search_case_insensitive]
    exact (List.pairwise_lt_range _).sublist (List.filter_sublist _)

/-- C5: the empty query matches every line: both matchers return exactly
the index sequence 0, 1, ..., N-1. -/
theorem c5_empty_query_all_indices (cs : List (List Char)) :
    search [] cs = List.range cs.length
    ∧ search_case_insensitive [] cs = List.range cs.length := by
  constructor
  · rw [search]
    simp [containsSub_nil_pat]
  · rw [search_case_insensitive]
    simp [toLowerStr, containsSub_nil_pat]

/-- C6: the configuration builder fails with the missing-query error when
no values follow the program name, with the missing-filename error when
exactly one does, and succeeds otherwise, taking query and filename from
the first two following values in order. -/
theorem c6_config_new_arity (args : List (List Char)) (env : Option (List Char)) :
    (args.length ≤ 1 → Config.new args env = .error msgMissingQuery)
    ∧ (args.length = 2 → Config.new args env = .error msgMissingFilename)
    ∧ (3 ≤ args.length →
        ∃ cfg warns, Config.new args env = .ok (cfg, warns)
          ∧ cfg.query = args.getD 1 [] ∧ cfg.filename = args.getD 2 []) := by
  match args with
  | [] =>
    exact ⟨fun _ => rfl, fun h => absurd h (by decide), fun h => absurd h (by decide)⟩
  | [a] =>
    exact ⟨fun _ => rfl, fun h => absurd h (by simp), fun h => absurd h (by simp)⟩
  | [a, b] =>
    exact ⟨fun h => absurd h (by simp), fun _ => rfl, fun h => absurd h (by simp)⟩
  | a :: b :: c :: rest =>
    refine ⟨?_, ?_, fun _ => ?_⟩
    · intro h
      simp only [List.length_cons] at h
      omega
    · intro h
      simp only [List.length_cons] at h
      omega
    · cases rest with
      | nil =>
        exact ⟨⟨b, c, 0, env.isNone⟩, [], rfl, rfl, rfl⟩
      | cons d rest3 =>
        cases hp : parseU8 d with
        | some x =>
          cases rest3 with
          | nil =>
            exact ⟨⟨b, c, x, env.isNone⟩, [], by simp [Config.new, hp], rfl, rfl⟩
          | cons e r =>
            exact ⟨⟨b, c, x, env.isNone⟩, [warnTooMany],
              by simp [Config.new, hp], rfl, rfl⟩
        | none =>
          cases rest3 with
          | nil =>
            exact ⟨⟨b, c, 0, env.isNone⟩, [warnBadStyle],
              by simp [Config.new, hp], rfl, rfl⟩
          | cons e r =>
            exact ⟨⟨b, c, 0, env.isNone⟩, [warnBadStyle, warnTooMany],
              by simp [Config.new, hp], rfl, rfl⟩

/-- Witness for C6 at the spec's scenario: one positional argument after
the program name fails with the missing-filename error. -/
theorem c6_config_new_arity_witness :
    Config.new [("prog".data), ("hello".data)] none = .error msgMissingFilename :=
  (c6_config_new_arity [("prog".data), ("hello".data)] none).2.1 (by decide)

/-- C7: an unparseable third argument is non-fatal: the builder succeeds
with style 0 and emits the parse warning; in particular building from
["prog", "q", "f", "notanumber"] succeeds with style 0 and exactly one
warning. -/
theorem c7_config_new_bad_style (prog q f st : List Char) (rest : List (List Char))
    (env : Option (List Char)) (hp : parseU8 st = none) :
    (∃ warns, Config.new (prog :: q :: f :: st :: rest) env
        = .ok ({ query := q, filename := f, style := 0,
                 case_sensitive := env.isNone }, warns)
      ∧ warnBadStyle ∈ warns)
    ∧ Config.new [("prog".data), ("q".data), ("f".data), ("notanumber".data)] env
        = .ok ({ query := ("q".data), filename := ("f".data), style := 0,
                 case_sensitive := env.isNone }, [warnBadStyle]) := by
  constructor
  · cases rest with
    | nil => exact ⟨[warnBadStyle], by simp [Config.new, hp], by simp⟩
    | cons e r => exact ⟨[warnBadStyle, warnTooMany], by simp [Config.new, hp], by simp⟩
  · rfl

/-- Witness for C7 at the spec's scenario input. -/
theorem c7_config_new_bad_style_witness :
    ∃ warns, Config.new [("prog".data), ("q".data), ("f".data), ("notanumber".data)] none
        = .ok ({ query := ("q".data), filename := ("f".data), style := 0,
                 case_sensitive := true }, warns)
      ∧ warnBadStyle ∈ warns :=
  (c7_config_new_bad_style ("prog".data) ("q".data) ("f".data) ("notanumber".data) [] none
    (by decide)).1

/-- C8: splitting file content on the line feed always yields at least
one line, splitting empty content yields exactly one empty line, and a
successful read returns exactly this split. -/
theorem c8_split_at_least_one_line :
    (∀ (filename content : List Char),
        read_file filename (some content) = .ok (splitNl content)
        ∧ 1 ≤ (splitNl content).length)
    ∧ splitNl [] = [[]] := by
  refine ⟨fun filename content => ⟨rfl, ?_⟩, rfl⟩
  cases content with
  | nil => decide
  | cons c rest =>
    rw [splitNl]
    split
    · simp
    · cases h : splitNl rest <;> simp

/-- C9: every index returned by either matcher is strictly below the
number of lines, and run on a readable file always produces an output
list, so the line indexing in run is always in bounds. -/
theorem c9_indices_in_bounds (q : List Char) (cs : List (List Char)) :
    ((search q cs).all (fun i => decide (i < cs.length))) = true
    ∧ ((search_case_insensitive q cs).all (fun i => decide (i < cs.length))) = true
    ∧ ∀ (cfg : Config) (content : List Char),
        ∃ out, run cfg (some content) = .ok out := by
  refine ⟨?_, ?_, ?_⟩
  · rw [List.all_eq_true]
    intro i hi
    rw [search] at hi
    have hr := (List.mem_filter.mp hi).1
    simpa using List.mem_range.mp hr
  · rw [List.all_eq_true]
    intro i hi
    rw [search_case_insensitive] at hi
    have hr := (List.mem_filter.mp hi).1
    simpa using List.mem_range.mp hr
  · intro cfg content
    simp only [run, read_file]
    split
    · exact ⟨_, rfl⟩
    · exact ⟨_, rfl⟩

/-- C10: with the empty query and any style code in 1..9, format is not
the identity: the start-marker-plus-reset pair is inserted at every
character boundary, including before the first character and after the
last. -/
theorem c10_format_empty_query (line : List Char) (s : Nat) (_h1 : 1 ≤ s) (h9 : s ≤ 9) :
    format line [] s
      = interleave ("\x1b[".data ++ natRepr s ++ ";1m".data ++ "\x1b[0m".data) line
    ∧ format line [] s ≠ line := by
  have hmark : add_style [] s
      = "\x1b[".data ++ natRepr s ++ ";1m".data ++ "\x1b[0m".data := by
    rw [add_style_of_le [] s h9]
    simp
  have hfmt : format line [] s = interleave (add_style [] s) line := rfl
  constructor
  · rw [hfmt, hmark]
  · rw [hfmt]
    intro hEq
    have hlen := congrArg List.length hEq
    rw [interleave_length] at hlen
    have hpos : 0 < (add_style [] s).length := by
      rw [hmark]
      have h2 : ("\x1b[".data).length = 2 := rfl
      simp only [List.length_append, h2]
      omega
    have hmul : line.length * 1 ≤ line.length * ((add_style [] s).length + 1) :=
      Nat.mul_le_mul_left _ (by omega)
    omega

/-- Witness for C10 at a concrete input. -/
theorem c10_format_empty_query_witness :
    format ("ab".data) [] 1
      = interleave ("\x1b[".data ++ natRepr 1 ++ ";1m".data ++ "\x1b[0m".data) ("ab".data)
    ∧ format ("ab".data) [] 1 ≠ ("ab".data) :=
  c10_format_empty_query ("ab".data) 1 (by decide) (by decide)

end Minigrep
